import Mathlib

/-!
Shallow embedding of `modis_atm/overpass_filter.py`.

Data model:
* A Python `datetime.datetime` is modelled by `Timestamp`: a wall-clock time
  in seconds (`wall : ℚ`) together with an optional UTC offset in seconds
  (`tz : Option ℚ`; `none` models a timezone-naive datetime).
  - `aware - naive` subtraction raises `TypeError` (modelled by `tsub = none`);
    `naive - naive` differences wall clocks; `aware - aware` differences the
    UTC instants `wall - offset`.
  - `dt.replace(tzinfo=None)` keeps the wall clock and drops the offset.
  - Python `==` (and hence dict-key identity) on two naive datetimes compares
    wall clocks, on two aware datetimes compares UTC instants, and is `False`
    between a naive and an aware datetime (`pyEq`).
* A shapely geometry is modelled as a finite set of unit grid cells
  (`Geom := Finset (ℤ × ℤ)`); `intersection` is set intersection and `area`
  is the cell count.  This keeps exactly the interface the code uses:
  pairwise intersection and area.
* Python floats are modelled by `ℚ`; a float division by zero raises
  `ZeroDivisionError`, modelled explicitly (`PyError.zeroDivision`), since in
  Lean `q / 0 = 0` silently.
* A fallible Python call returns `Except PyError α`; an uncaught exception
  propagates through `Except` bind.
* A Python `dict` (insertion ordered, keys matched with `==`) is modelled by
  an association list `List (Timestamp × List Entry)` in insertion order.
-/

/-- Python exceptions that the embedded code can raise:
`TypeError` (naive/aware datetime subtraction), `ZeroDivisionError`
(float division by zero), and `ValueError` (the explicit
`raise ValueError('No reasonably close overpass among entries.')`). -/
inductive PyError where
  | typeError
  | zeroDivision
  | valueError
deriving DecidableEq, Repr

/-- Model of `datetime.datetime`: wall-clock seconds plus an optional UTC
offset in seconds (`none` = timezone-naive). -/
structure Timestamp where
  wall : ℚ
  tz : Option ℚ
deriving DecidableEq, Repr

/-- Python datetime subtraction, in seconds (`timedelta.total_seconds()`):
naive minus naive differences wall clocks, aware minus aware differences UTC
instants, and a mixed pair raises `TypeError` (`none`). -/
def tsub (a b : Timestamp) : Option ℚ :=
  match a.tz, b.tz with
  | none, none => some (a.wall - b.wall)
  | some x, some y => some ((a.wall - x) - (b.wall - y))
  | _, _ => none

/-- `dt.replace(tzinfo=None)`: drop the offset, keep the wall clock. -/
def stripTz (a : Timestamp) : Timestamp := ⟨a.wall, none⟩

/-- Python `==` on datetimes (also Python dict-key identity): wall-clock
equality for two naive stamps, UTC-instant equality for two aware stamps,
`false` for a naive/aware pair. -/
def pyEq (a b : Timestamp) : Bool :=
  match a.tz, b.tz with
  | none, none => a.wall == b.wall
  | some x, some y => (a.wall - x) == (b.wall - y)
  | _, _ => false

/-- Model of a geometry: a finite set of unit grid cells. -/
abbrev Geom := Finset (ℤ × ℤ)

/-- Area of a geometry: its number of cells, as a rational. -/
def area (g : Geom) : ℚ := (g.card : ℚ)

/-- One parsed catalog entry: `start_date`, `end_date`, `footprint`. -/
structure Entry where
  start_date : Timestamp
  end_date : Timestamp
  footprint : Geom
deriving DecidableEq

/-- `_average_datetime(date1, date2)`: `dt = date2 - date1`;
`date = date1 + dt / 2`.  Python datetime + timedelta adds to the wall clock
and keeps `date1`'s timezone; the subtraction raises `TypeError` on a
naive/aware pair, which propagates. -/
def average_datetime (date1 date2 : Timestamp) : Except PyError Timestamp :=
  match tsub date2 date1 with
  | none => .error PyError.typeError
  | some dt => .ok ⟨date1.wall + dt / 2, date1.tz⟩

/-- One step of `group_entries_by_date`:
`date_groups[date].append(e)` on an insertion-ordered dict whose keys are
matched with Python `==` (`pyEq`).  A fresh key is appended at the end. -/
def insertGroup (groups : List (Timestamp × List Entry)) (date : Timestamp)
    (e : Entry) : List (Timestamp × List Entry) :=
  match groups with
  | [] => [(date, [e])]
  | (k, es) :: rest =>
    if pyEq k date then (k, es ++ [e]) :: rest
    else (k, es) :: insertGroup rest date e

/-- The `for e in parsed_entries` loop of `group_entries_by_date`, carrying
the dict built so far. -/
def groupLoop (groups : List (Timestamp × List Entry)) :
    List Entry → Except PyError (List (Timestamp × List Entry))
  | [] => .ok groups
  | e :: rest =>
    match average_datetime e.start_date e.end_date with
    | .error err => .error err
    | .ok date => groupLoop (insertGroup groups date e) rest

/-- `group_entries_by_date(parsed_entries)`: build a defaultdict(list) keyed
by `_average_datetime(e['start_date'], e['end_date'])`, appending each entry
to its key's list. -/
def group_entries_by_date (parsed_entries : List Entry) :
    Except PyError (List (Timestamp × List Entry)) :=
  groupLoop [] parsed_entries

/-- The arithmetic tail of `_value_date`, applied to the seconds difference
`ddiff` obtained from whichever subtraction succeeded:
`diff_hours = abs(ddiff.total_seconds() / 3600)`;
`if diff_hours > max_diff_hours: return 0.0`;
`timepct = (max_diff_hours - diff_hours) / max_diff_hours` — a float division
that raises `ZeroDivisionError` when `max_diff_hours` is 0. -/
def valueDateCore (ddiff max_diff_hours : ℚ) : Except PyError ℚ :=
  if max_diff_hours < |ddiff / 3600| then .ok 0
  else if max_diff_hours = 0 then .error PyError.zeroDivision
  else .ok ((max_diff_hours - |ddiff / 3600|) / max_diff_hours)

/-- `_value_date(overpass_date, target_date, max_diff_hours)`:
`try: ddiff = overpass_date - target_date`
`except TypeError:` strip `tzinfo` from both and retry the subtraction once
(a second failure would propagate), then score the difference. -/
def value_date (overpass_date target_date : Timestamp)
    (max_diff_hours : ℚ := 48) : Except PyError ℚ :=
  match tsub overpass_date target_date with
  | some ddiff => valueDateCore ddiff max_diff_hours
  | none =>
    match tsub (stripTz overpass_date) (stripTz target_date) with
    | some ddiff => valueDateCore ddiff max_diff_hours
    | none => .error PyError.typeError

/-- `_value_overlap(footprint_geom, aoi_geom)`:
`intersection = aoi_geom.intersection(footprint_geom)`;
`intersectionpct = intersection.area / aoi_geom.area` — raises
`ZeroDivisionError` on a zero-area AOI. -/
def value_overlap (footprint_geom aoi_geom : Geom) : Except PyError ℚ :=
  if area aoi_geom = 0 then .error PyError.zeroDivision
  else .ok (area (aoi_geom ∩ footprint_geom) / area aoi_geom)

/-- The `for overpass_date in date_groups` loop of `get_best_overpass`,
carrying `best_date_value` and `best_entries`.  For each group: compute the
date value (skip the group when it is 0), compute the per-entry overlap
values and skip when their sum is below `min_overlap_pct`, and record the
group when its date value strictly exceeds the best so far. -/
def scan_groups (aoi_geom : Geom) (target_date : Timestamp) (m p : ℚ) :
    List (Timestamp × List Entry) → ℚ → Option (List Entry) →
      Except PyError (ℚ × Option (List Entry))
  | [], bv, be => .ok (bv, be)
  | g :: gs, bv, be =>
    match value_date g.1 target_date m with
    | .error err => .error err
    | .ok date_value =>
      if date_value = 0 then scan_groups aoi_geom target_date m p gs bv be
      else
        match g.2.mapM (fun e => value_overlap e.footprint aoi_geom) with
        | .error err => .error err
        | .ok overlap_values =>
          if overlap_values.sum < p then
            scan_groups aoi_geom target_date m p gs bv be
          else if bv < date_value then
            scan_groups aoi_geom target_date m p gs date_value (some g.2)
          else scan_groups aoi_geom target_date m p gs bv be

/-- `get_best_overpass(parsed_entries, aoi_geom, target_date,
max_diff_hours=48, min_overlap_pct=0.3)`: group the entries by overpass
date, scan the groups with `best_date_value` initialized to 0 and
`best_entries` to `None`, raise
`ValueError('No reasonably close overpass among entries.')` when
`best_date_value` is still falsy, and otherwise return `best_entries`. -/
def get_best_overpass (parsed_entries : List Entry) (aoi_geom : Geom)
    (target_date : Timestamp) (max_diff_hours : ℚ := 48)
    (min_overlap_pct : ℚ := 3/10) : Except PyError (Option (List Entry)) :=
  match group_entries_by_date parsed_entries with
  | .error err => .error err
  | .ok date_groups =>
    match scan_groups aoi_geom target_date max_diff_hours min_overlap_pct
        date_groups 0 none with
    | .error err => .error err
    | .ok (best_date_value, best_entries) =>
      if best_date_value = 0 then .error PyError.valueError
      else .ok best_entries

/-! Derived notions used to state the claims. -/

/-- The seconds difference `_value_date` effectively uses: the direct
subtraction when it succeeds, otherwise the wall-clock difference after the
`tzinfo` strip. -/
def effDiff (o t : Timestamp) : ℚ :=
  match tsub o t with
  | some d => d
  | none => o.wall - t.wall

/-- The absolute difference in hours that `_value_date` scores. -/
def diffHours (o t : Timestamp) : ℚ := |effDiff o t / 3600|

/-- Sum of the per-entry overlap values of a group, exactly as the selector
computes it (`np.sum(overlap_values)` over `_value_overlap` per entry). -/
def overlapSum (aoi_geom : Geom) (es : List Entry) : Except PyError ℚ :=
  (es.mapM (fun e => value_overlap e.footprint aoi_geom)).map List.sum

/-- A group qualifies with date value `dv`: its date value is `dv ≠ 0` and
its summed overlap clears the `min_overlap_pct` floor. -/
def QualWith (aoi_geom : Geom) (target_date : Timestamp) (m p : ℚ)
    (g : Timestamp × List Entry) (dv : ℚ) : Prop :=
  value_date g.1 target_date m = .ok dv ∧ dv ≠ 0 ∧
    ∃ s, overlapSum aoi_geom g.2 = .ok s ∧ ¬ s < p

/-- A group passes both selector filters. -/
def Qual (aoi_geom : Geom) (target_date : Timestamp) (m p : ℚ)
    (g : Timestamp × List Entry) : Prop :=
  ∃ dv, QualWith aoi_geom target_date m p g dv

/-- Entry midpoint key matching used by the grouping dict: the entry's
`_average_datetime` midpoint exists and is Python-`==` to the key `k`. -/
def hasMidKey (e : Entry) (k : Timestamp) : Bool :=
  match average_datetime e.start_date e.end_date with
  | .ok d => pyEq d k
  | .error _ => false

/-! Basic lemmas about timestamps and the temporal scorer. -/

theorem tsub_isSome_iff (a b : Timestamp) :
    (tsub a b).isSome ↔ a.tz.isSome = b.tz.isSome := by
  unfold tsub
  cases a.tz <;> cases b.tz <;> simp

theorem tsub_swap (a b : Timestamp) : tsub b a = (tsub a b).map Neg.neg := by
  unfold tsub
  cases a.tz <;> cases b.tz <;> simp

theorem tsub_strip (a b : Timestamp) :
    tsub (stripTz a) (stripTz b) = some (a.wall - b.wall) := rfl

theorem pyEq_refl (a : Timestamp) : pyEq a a = true := by
  unfold pyEq
  cases a.tz <;> simp

theorem pyEq_comm (a b : Timestamp) : pyEq a b = pyEq b a := by
  unfold pyEq
  cases a.tz <;> cases b.tz <;> simp [eq_comm]

theorem pyEq_trans {a b c : Timestamp} (hab : pyEq a b = true)
    (hbc : pyEq b c = true) : pyEq a c = true := by
  obtain ⟨aw, atz⟩ := a
  obtain ⟨bw, btz⟩ := b
  obtain ⟨cw, ctz⟩ := c
  unfold pyEq at *
  cases atz <;> cases btz <;> cases ctz <;> simp_all

theorem value_date_eq_core (o t : Timestamp) (m : ℚ) :
    value_date o t m = valueDateCore (effDiff o t) m := by
  unfold value_date effDiff
  cases h : tsub o t with
  | some d => rfl
  | none => rw [tsub_strip]

theorem valueDateCore_neg (d m : ℚ) : valueDateCore (-d) m = valueDateCore d m := by
  unfold valueDateCore
  rw [neg_div, abs_neg]

theorem valueDateCore_ok_bounds {d m v : ℚ}
    (h : valueDateCore d m = .ok v) : 0 ≤ v ∧ v ≤ 1 := by
  unfold valueDateCore at h
  have hdh0 : (0 : ℚ) ≤ |d / 3600| := abs_nonneg _
  by_cases h1 : m < |d / 3600|
  · rw [if_pos h1] at h
    cases h
    norm_num
  · rw [if_neg h1] at h
    by_cases h2 : m = 0
    · rw [if_pos h2] at h
      cases h
    · rw [if_neg h2] at h
      cases h
      have hle : |d / 3600| ≤ m := not_lt.mp h1
      have hm : 0 < m := lt_of_le_of_ne (le_trans hdh0 hle) (Ne.symm h2)
      constructor
      · exact div_nonneg (by linarith) hm.le
      · rw [div_le_one hm]
        linarith

theorem value_date_ok_bounds {o t : Timestamp} {m v : ℚ}
    (h : value_date o t m = .ok v) : 0 ≤ v ∧ v ≤ 1 := by
  rw [value_date_eq_core] at h
  exact valueDateCore_ok_bounds h

/-- Closed form of `_value_date` when the cutoff is positive. -/
theorem value_date_ok_formula (o t : Timestamp) {m : ℚ} (hm : 0 < m) :
    value_date o t m =
      .ok (if m < diffHours o t then 0 else (m - diffHours o t) / m) := by
  rw [value_date_eq_core]
  unfold valueDateCore diffHours
  by_cases h : m < |effDiff o t / 3600|
  · rw [if_pos h, if_pos h]
  · rw [if_neg h, if_neg hm.ne', if_neg h]

/-- With `max_diff_hours = 0`, `_value_date` raises `ZeroDivisionError`
exactly when the difference is zero, and returns 0 otherwise. -/
theorem value_date_zero_max (o t : Timestamp) :
    value_date o t 0 =
      if diffHours o t = 0 then .error PyError.zeroDivision else .ok 0 := by
  rw [value_date_eq_core]
  unfold valueDateCore diffHours
  have habs : (0 : ℚ) ≤ |effDiff o t / 3600| := abs_nonneg _
  by_cases h : |effDiff o t / 3600| = 0
  · rw [if_neg (by rw [h]; exact lt_irrefl 0), if_pos rfl, if_pos h]
  · rw [if_pos (lt_of_le_of_ne habs (Ne.symm h)), if_neg h]

/-- C3: for any overpass and target timestamps and `max_diff_hours > 0`, the
temporal scorer returns exactly 0 when the absolute difference in hours
exceeds `max_diff_hours` and `(max_diff_hours - diff_hours) / max_diff_hours`
otherwise, and every value it returns lies in `[0, 1]`. -/
theorem value_date_formula (o t : Timestamp) (m : ℚ) (hm : 0 < m) :
    value_date o t m =
      .ok (if m < diffHours o t then 0 else (m - diffHours o t) / m) ∧
    ∀ v, value_date o t m = .ok v → 0 ≤ v ∧ v ≤ 1 := by
  exact ⟨value_date_ok_formula o t hm, fun v hv => value_date_ok_bounds hv⟩

/-- Witness for C3: a 72-hour difference against a 48-hour cutoff scores
exactly 0, and the closed form with bounds holds at that input. -/
theorem value_date_formula_witness :
    value_date ⟨259200, none⟩ ⟨0, none⟩ 48 =
      .ok (if 48 < diffHours ⟨259200, none⟩ ⟨0, none⟩ then 0
        else (48 - diffHours ⟨259200, none⟩ ⟨0, none⟩) / 48) ∧
    ∀ v, value_date ⟨259200, none⟩ ⟨0, none⟩ 48 = .ok v → 0 ≤ v ∧ v ≤ 1 :=
  value_date_formula ⟨259200, none⟩ ⟨0, none⟩ 48 (by norm_num)

/-- C6: for a fixed positive cutoff, the temporal value is monotonically
non-increasing in the absolute hour difference, is exactly 1 at difference 0,
and is exactly 0 at the cutoff and at every larger difference. -/
theorem value_date_monotone (m : ℚ) (hm : 0 < m) :
    (∀ o t o2 t2 v v2, diffHours o t ≤ diffHours o2 t2 →
      value_date o t m = .ok v → value_date o2 t2 m = .ok v2 → v2 ≤ v) ∧
    (∀ o t, diffHours o t = 0 → value_date o t m = .ok 1) ∧
    (∀ o t, m ≤ diffHours o t → value_date o t m = .ok 0) := by
  refine ⟨?_, ?_, ?_⟩
  · intro o t o2 t2 v v2 hle hv hv2
    rw [value_date_ok_formula o t hm] at hv
    rw [value_date_ok_formula o2 t2 hm] at hv2
    cases hv
    cases hv2
    have h1 : (0 : ℚ) ≤ diffHours o t := abs_nonneg _
    by_cases h2 : m < diffHours o2 t2
    · rw [if_pos h2]
      by_cases h3 : m < diffHours o t
      · rw [if_pos h3]
      · rw [if_neg h3]
        exact div_nonneg (by linarith [not_lt.mp h3]) hm.le
    · rw [if_neg h2]
      have h4 : ¬ m < diffHours o t := by
        intro h
        exact h2 (lt_of_lt_of_le h hle)
      rw [if_neg h4]
      have hnum : m - diffHours o2 t2 ≤ m - diffHours o t := by linarith
      exact div_le_div_of_nonneg_right hnum hm.le
  · intro o t h0
    rw [value_date_ok_formula o t hm, h0]
    rw [if_neg (by linarith), sub_zero, div_self hm.ne']
  · intro o t hge
    rw [value_date_ok_formula o t hm]
    by_cases h : m < diffHours o t
    · rw [if_pos h]
    · rw [if_neg h]
      have : diffHours o t = m := le_antisymm (not_lt.mp h) hge
      rw [this, sub_self, zero_div]

/-- Witness for C6: instantiating the monotonicity statement at cutoff 48
with differences of 1 hour and 2 hours. -/
theorem value_date_monotone_witness :
    (∀ o t o2 t2 v v2, diffHours o t ≤ diffHours o2 t2 →
      value_date o t 48 = .ok v → value_date o2 t2 48 = .ok v2 → v2 ≤ v) ∧
    (∀ o t, diffHours o t = 0 → value_date o t 48 = .ok 1) ∧
    (∀ o t, (48 : ℚ) ≤ diffHours o t → value_date o t 48 = .ok 0) :=
  value_date_monotone 48 (by norm_num)

/-- Swapping the arguments negates the effective seconds difference, on the
direct path and on the strip fallback path alike. -/
theorem effDiff_swap (o t : Timestamp) : effDiff t o = -(effDiff o t) := by
  unfold effDiff
  rw [tsub_swap o t]
  cases h : tsub o t with
  | some d => simp
  | none => simp

/-- C7: the temporal scorer is symmetric in its two date arguments, on the
direct path and on the timezone-strip fallback path alike. -/
theorem value_date_symm (o t : Timestamp) (m : ℚ) :
    value_date o t m = value_date t o m := by
  rw [value_date_eq_core, value_date_eq_core, effDiff_swap o t, valueDateCore_neg]

/-- C8: direct subtraction fails exactly when one timestamp is aware and the
other naive; in that case the scorer strips the timezone from both sides,
the retried subtraction succeeds (returning the wall-clock difference), and
the result is the same as scoring the two stripped timestamps. -/
theorem value_date_tz_fallback (o t : Timestamp) (m : ℚ) :
    (tsub o t = none ↔ ¬ o.tz.isSome = t.tz.isSome) ∧
    (tsub o t = none →
      tsub (stripTz o) (stripTz t) = some (o.wall - t.wall) ∧
      value_date o t m = value_date (stripTz o) (stripTz t) m) := by
  constructor
  · constructor
    · intro h hcontra
      have hsome := (tsub_isSome_iff o t).mpr hcontra
      rw [h] at hsome
      simp at hsome
    · intro h
      cases hs : tsub o t with
      | none => rfl
      | some d =>
        exact absurd ((tsub_isSome_iff o t).mp (by rw [hs]; rfl)) h
  · intro h
    refine ⟨tsub_strip o t, ?_⟩
    unfold value_date
    rw [h, tsub_strip]

/-- Witness for C8: an aware/naive pair at the same wall clock; the direct
subtraction fails and the scorer falls back to the stripped pair. -/
theorem value_date_tz_fallback_witness :
    tsub (stripTz ⟨0, some 3600⟩) (stripTz ⟨0, none⟩) = some ((0 : ℚ) - 0) ∧
    value_date ⟨0, some 3600⟩ ⟨0, none⟩ 48 =
      value_date (stripTz ⟨0, some 3600⟩) (stripTz ⟨0, none⟩) 48 :=
  (value_date_tz_fallback ⟨0, some 3600⟩ ⟨0, none⟩ 48).2 rfl

/-- With `max_diff_hours = 0`, every group either scores 0 (skipped without
looking at overlaps) or raises `ZeroDivisionError`; so as soon as one group
sits exactly at the target date the scan raises. -/
theorem scan_groups_zero_max (aoi_geom : Geom) (t : Timestamp) (p : ℚ) :
    ∀ (gs : List (Timestamp × List Entry)) (bv : ℚ) (be : Option (List Entry)),
      (∃ g ∈ gs, diffHours g.1 t = 0) →
      scan_groups aoi_geom t 0 p gs bv be = .error PyError.zeroDivision := by
  intro gs
  induction gs with
  | nil =>
    intro bv be h
    obtain ⟨g, hg, _⟩ := h
    exact absurd hg (List.not_mem_nil g)
  | cons g0 rest ih =>
    intro bv be h
    unfold scan_groups
    by_cases h0 : diffHours g0.1 t = 0
    · rw [value_date_zero_max, if_pos h0]
    · rw [value_date_zero_max, if_neg h0]
      have hrest : ∃ g ∈ rest, diffHours g.1 t = 0 := by
        obtain ⟨g, hg, hgd⟩ := h
        rcases List.mem_cons.mp hg with hgeq | hgmem
        · exact absurd (hgeq ▸ hgd) h0
        · exact ⟨g, hgmem, hgd⟩
      simp only [if_pos rfl]
      exact ih bv be hrest

/-- C10: with `max_diff_hours = 0`, when some group's overpass date exactly
matches the target date the selector raises `ZeroDivisionError` — the
`diff_hours > max_diff_hours` guard does not protect the division at the
cutoff — rather than returning entries or the no-qualifying-overpass error. -/
theorem zero_max_diff_zero_division (entries : List Entry) (aoi_geom : Geom)
    (t : Timestamp) (p : ℚ) (gs : List (Timestamp × List Entry))
    (hgs : group_entries_by_date entries = .ok gs)
    (hhit : ∃ g ∈ gs, diffHours g.1 t = 0) :
    get_best_overpass entries aoi_geom t 0 p = .error PyError.zeroDivision := by
  unfold get_best_overpass
  rw [hgs]
  have hscan := scan_groups_zero_max aoi_geom t p gs 0 none hhit
  simp [hscan]

/-- A successful per-group `mapM` of overlap values determines the group's
overlap sum. -/
theorem overlapSum_eq (aoi_geom : Geom) (es : List Entry) (ovs : List ℚ)
    (h : es.mapM (fun e => value_overlap e.footprint aoi_geom) = .ok ovs) :
    overlapSum aoi_geom es = .ok ovs.sum := by
  unfold overlapSum
  rw [h]
  rfl

/-- Main characterization of the selector loop.  If the scan finishes
without raising, then the best value never decreases, every qualifying
group's date value is bounded by the final best value, and either no update
happened, or the list splits around the first group that attained the final
best value: it qualifies, strictly beats the incoming best value, and every
qualifying group before it has a strictly smaller date value. -/
theorem scan_groups_ok_spec (aoi_geom : Geom) (t : Timestamp) (m p : ℚ) :
    ∀ (gs : List (Timestamp × List Entry)) (bv bv' : ℚ)
      (be be' : Option (List Entry)),
      0 ≤ bv →
      scan_groups aoi_geom t m p gs bv be = .ok (bv', be') →
      bv ≤ bv' ∧
      (∀ g ∈ gs, ∀ dv, QualWith aoi_geom t m p g dv → dv ≤ bv') ∧
      ((bv' = bv ∧ be' = be) ∨
        ∃ pre g post dv, gs = pre ++ g :: post ∧
          QualWith aoi_geom t m p g dv ∧ bv < dv ∧ bv' = dv ∧
          be' = some g.2 ∧
          ∀ g2 ∈ pre, ∀ dv2, QualWith aoi_geom t m p g2 dv2 → dv2 < dv) := by
  intro gs
  induction gs with
  | nil =>
    intro bv bv' be be' hbv h
    unfold scan_groups at h
    have hpair : bv = bv' ∧ be = be' := by
      have := h
      simp only [Except.ok.injEq, Prod.mk.injEq] at this
      exact this
    refine ⟨hpair.1.le, ?_, Or.inl ⟨hpair.1.symm, hpair.2.symm⟩⟩
    intro g hg
    exact absurd hg (List.not_mem_nil g)
  | cons g0 rest ih =>
    intro bv bv' be be' hbv h
    unfold scan_groups at h
    cases hdv : value_date g0.1 t m with
    | error err =>
      rw [hdv] at h
      simp at h
    | ok dv0 =>
      rw [hdv] at h
      simp only at h
      by_cases h0 : dv0 = 0
      · rw [if_pos h0] at h
        obtain ⟨hle, hquals, hdisj⟩ := ih bv bv' be be' hbv h
        refine ⟨hle, ?_, ?_⟩
        · intro g hg dv hq
          rcases List.mem_cons.mp hg with rfl | hgmem
          · unfold QualWith at hq
            obtain ⟨hvd, hne, _⟩ := hq
            rw [hdv] at hvd
            injection hvd with heq
            exact absurd (heq ▸ h0) hne
          · exact hquals g hgmem dv hq
        · rcases hdisj with hsame | ⟨pre, g, post, dv, hsplit, hqg, hlt, hbv2, hbe2, hpre⟩
          · exact Or.inl hsame
          · refine Or.inr ⟨g0 :: pre, g, post, dv, by rw [hsplit]; rfl, hqg, hlt,
              hbv2, hbe2, ?_⟩
            intro g2 hg2 dv2 hq2
            rcases List.mem_cons.mp hg2 with rfl | hg2mem
            · unfold QualWith at hq2
              obtain ⟨hvd, hne, _⟩ := hq2
              rw [hdv] at hvd
              injection hvd with heq
              exact absurd (heq ▸ h0) hne
            · exact hpre g2 hg2mem dv2 hq2
      · rw [if_neg h0] at h
        cases hmap : g0.2.mapM (fun e => value_overlap e.footprint aoi_geom) with
        | error err =>
          rw [hmap] at h
          simp at h
        | ok ovs =>
          rw [hmap] at h
          simp only at h
          have hosum : overlapSum aoi_geom g0.2 = .ok ovs.sum :=
            overlapSum_eq aoi_geom g0.2 ovs hmap
          by_cases hs : ovs.sum < p
          · rw [if_pos hs] at h
            obtain ⟨hle, hquals, hdisj⟩ := ih bv bv' be be' hbv h
            refine ⟨hle, ?_, ?_⟩
            · intro g hg dv hq
              rcases List.mem_cons.mp hg with rfl | hgmem
              · unfold QualWith at hq
                obtain ⟨hvd, hne, s, hsum, hnlt⟩ := hq
                rw [hosum] at hsum
                injection hsum with hseq
                exact absurd (hseq ▸ hs) hnlt
              · exact hquals g hgmem dv hq
            · rcases hdisj with hsame | ⟨pre, g, post, dv, hsplit, hqg, hlt, hbv2, hbe2, hpre⟩
              · exact Or.inl hsame
              · refine Or.inr ⟨g0 :: pre, g, post, dv, by rw [hsplit]; rfl, hqg, hlt,
                  hbv2, hbe2, ?_⟩
                intro g2 hg2 dv2 hq2
                rcases List.mem_cons.mp hg2 with rfl | hg2mem
                · unfold QualWith at hq2
                  obtain ⟨hvd, hne, s, hsum, hnlt⟩ := hq2
                  rw [hosum] at hsum
                  injection hsum with hseq
                  exact absurd (hseq ▸ hs) hnlt
                · exact hpre g2 hg2mem dv2 hq2
          · rw [if_neg hs] at h
            have hqual0 : QualWith aoi_geom t m p g0 dv0 := by
              unfold QualWith
              exact ⟨hdv, h0, ovs.sum, hosum, hs⟩
            by_cases hb : bv < dv0
            · rw [if_pos hb] at h
              obtain ⟨hle, hquals, hdisj⟩ :=
                ih dv0 bv' (some g0.2) be' (hbv.trans hb.le) h
              refine ⟨hb.le.trans hle, ?_, ?_⟩
              · intro g hg dv hq
                rcases List.mem_cons.mp hg with rfl | hgmem
                · unfold QualWith at hq
                  obtain ⟨hvd, _, _⟩ := hq
                  rw [hdv] at hvd
                  injection hvd with heq
                  exact heq ▸ hle
                · exact hquals g hgmem dv hq
              · rcases hdisj with ⟨hbv2, hbe2⟩ | ⟨pre, g, post, dv, hsplit, hqg, hlt, hbv2, hbe2, hpre⟩
                · refine Or.inr ⟨[], g0, rest, dv0, rfl, hqual0, hb, hbv2, hbe2, ?_⟩
                  intro g2 hg2
                  exact absurd hg2 (List.not_mem_nil g2)
                · refine Or.inr ⟨g0 :: pre, g, post, dv, by rw [hsplit]; rfl, hqg,
                    hb.trans hlt, hbv2, hbe2, ?_⟩
                  intro g2 hg2 dv2 hq2
                  rcases List.mem_cons.mp hg2 with rfl | hg2mem
                  · unfold QualWith at hq2
                    obtain ⟨hvd, _, _⟩ := hq2
                    rw [hdv] at hvd
                    injection hvd with heq
                    exact heq ▸ hlt
                  · exact hpre g2 hg2mem dv2 hq2
            · rw [if_neg hb] at h
              obtain ⟨hle, hquals, hdisj⟩ := ih bv bv' be be' hbv h
              refine ⟨hle, ?_, ?_⟩
              · intro g hg dv hq
                rcases List.mem_cons.mp hg with rfl | hgmem
                · unfold QualWith at hq
                  obtain ⟨hvd, _, _⟩ := hq
                  rw [hdv] at hvd
                  injection hvd with heq
                  exact heq ▸ ((not_lt.mp hb).trans hle)
                · exact hquals g hgmem dv hq
              · rcases hdisj with hsame | ⟨pre, g, post, dv, hsplit, hqg, hlt, hbv2, hbe2, hpre⟩
                · exact Or.inl hsame
                · refine Or.inr ⟨g0 :: pre, g, post, dv, by rw [hsplit]; rfl, hqg, hlt,
                    hbv2, hbe2, ?_⟩
                  intro g2 hg2 dv2 hq2
                  rcases List.mem_cons.mp hg2 with rfl | hg2mem
                  · unfold QualWith at hq2
                    obtain ⟨hvd, _, _⟩ := hq2
                    rw [hdv] at hvd
                    injection hvd with heq
                    exact heq ▸ ((not_lt.mp hb).trans_lt hlt)
                  · exact hpre g2 hg2mem dv2 hq2

/-- A qualifying date value is strictly positive: `_value_date` only returns
values in `[0,1]`, and the selector skips exact zeros. -/
theorem qualWith_pos {aoi_geom : Geom} {t : Timestamp} {m p dv : ℚ}
    {g : Timestamp × List Entry} (hq : QualWith aoi_geom t m p g dv) :
    0 < dv := by
  unfold QualWith at hq
  obtain ⟨hvd, hne, _⟩ := hq
  exact lt_of_le_of_ne (value_date_ok_bounds hvd).1 (Ne.symm hne)

/-- C1: whenever the selector returns, its result is the entry list of some
group `g` of the grouping of the input entries such that: `g` has a strictly
positive temporal value `dv`, `g`'s summed per-entry overlap value is at
least `min_overlap_pct`, every group passing both filters has temporal value
at most `dv`, and every group passing both filters that is encountered
before `g` has temporal value strictly below `dv` (first-encountered wins on
exact ties); overlap enters only through the pass/fail gate recorded in
`QualWith`. -/
theorem get_best_overpass_ok_spec (entries : List Entry) (aoi_geom : Geom)
    (t : Timestamp) (m p : ℚ) (r : Option (List Entry))
    (h : get_best_overpass entries aoi_geom t m p = .ok r) :
    ∃ gs pre g post dv,
      group_entries_by_date entries = .ok gs ∧
      gs = pre ++ g :: post ∧
      r = some g.2 ∧
      value_date g.1 t m = .ok dv ∧ 0 < dv ∧
      (∃ s, overlapSum aoi_geom g.2 = .ok s ∧ p ≤ s) ∧
      (∀ g2 ∈ gs, ∀ dv2, QualWith aoi_geom t m p g2 dv2 → dv2 ≤ dv) ∧
      (∀ g2 ∈ pre, ∀ dv2, QualWith aoi_geom t m p g2 dv2 → dv2 < dv) := by
  unfold get_best_overpass at h
  cases hgs : group_entries_by_date entries with
  | error err =>
    rw [hgs] at h
    simp at h
  | ok gs =>
    rw [hgs] at h
    simp only at h
    cases hscan : scan_groups aoi_geom t m p gs 0 none with
    | error err =>
      rw [hscan] at h
      simp at h
    | ok bvbe =>
      obtain ⟨bv', be'⟩ := bvbe
      rw [hscan] at h
      simp only at h
      by_cases hz : bv' = 0
      · rw [if_pos hz] at h
        simp at h
      · rw [if_neg hz] at h
        injection h with hbe
        obtain ⟨hle, hquals, hdisj⟩ :=
          scan_groups_ok_spec aoi_geom t m p gs 0 bv' none be' le_rfl hscan
        rcases hdisj with ⟨hbv2, _⟩ | ⟨pre, g, post, dv, hsplit, hqg, hlt, hbv2, hbe2, hpre⟩
        · exact absurd hbv2 hz
        · have hqg' := hqg
          unfold QualWith at hqg'
          obtain ⟨hvd, hne, s, hsum, hnlt⟩ := hqg'
          refine ⟨gs, pre, g, post, dv, rfl, hsplit, ?_, hvd, hlt, ⟨s, hsum, not_lt.mp hnlt⟩,
            ?_, hpre⟩
          · rw [← hbe, hbe2]
          · intro g2 hg2 dv2 hq2
            exact (hquals g2 hg2 dv2 hq2).trans_eq hbv2

/-- A one-cell geometry used by the concrete witnesses. -/
def unitCell : Geom := {(0, 0)}

/-- The reference timestamp used by the concrete witnesses. -/
def t0 : Timestamp := ⟨0, none⟩

/-- A witness entry whose interval midpoint is exactly `t0` and whose
footprint is the whole one-cell AOI. -/
def entry0 : Entry := ⟨t0, t0, unitCell⟩

/-- Witness for C1: a single entry at the target date with full overlap is
selected, and the characterization holds for that run. -/
theorem get_best_overpass_ok_spec_witness :
    ∃ gs pre g post dv,
      group_entries_by_date [entry0] = .ok gs ∧
      gs = pre ++ g :: post ∧
      (some [entry0] : Option (List Entry)) = some g.2 ∧
      value_date g.1 t0 48 = .ok dv ∧ 0 < dv ∧
      (∃ s, overlapSum unitCell g.2 = .ok s ∧ (3 / 10 : ℚ) ≤ s) ∧
      (∀ g2 ∈ gs, ∀ dv2, QualWith unitCell t0 48 (3/10) g2 dv2 → dv2 ≤ dv) ∧
      (∀ g2 ∈ pre, ∀ dv2, QualWith unitCell t0 48 (3/10) g2 dv2 → dv2 < dv) :=
  get_best_overpass_ok_spec [entry0] unitCell t0 48 (3/10) (some [entry0]) (by
    norm_num [get_best_overpass, group_entries_by_date, groupLoop, average_datetime,
      tsub, insertGroup, scan_groups, value_date, valueDateCore, value_overlap, area,
      List.mapM, List.mapM.loop, entry0, unitCell, t0])

/-- C2: the selector raises the no-qualifying-overpass `ValueError` exactly
when no group passes both filters; the empty entries list always raises it
(no group is ever evaluated), and a non-raising run returns the entry list
of one of the groups. -/
theorem get_best_overpass_error_iff :
    (∀ (aoi_geom : Geom) (t : Timestamp) (m p : ℚ),
      get_best_overpass [] aoi_geom t m p = .error PyError.valueError) ∧
    (∀ (entries : List Entry) (aoi_geom : Geom) (t : Timestamp) (m p : ℚ)
      (gs : List (Timestamp × List Entry)) (bvbe : ℚ × Option (List Entry)),
      group_entries_by_date entries = .ok gs →
      scan_groups aoi_geom t m p gs 0 none = .ok bvbe →
      ((get_best_overpass entries aoi_geom t m p = .error PyError.valueError ↔
        ∀ g ∈ gs, ¬ Qual aoi_geom t m p g) ∧
       ∀ r, get_best_overpass entries aoi_geom t m p = .ok r →
         ∃ g ∈ gs, r = some g.2)) := by
  constructor
  · intro aoi_geom t m p
    simp [get_best_overpass, group_entries_by_date, groupLoop, scan_groups]
  · intro entries aoi_geom t m p gs bvbe hgs hscan
    obtain ⟨bv', be'⟩ := bvbe
    have hget : get_best_overpass entries aoi_geom t m p =
        if bv' = 0 then .error PyError.valueError else .ok be' := by
      unfold get_best_overpass
      simp only [hgs]
      simp only [hscan]
    obtain ⟨hle, hquals, hdisj⟩ :=
      scan_groups_ok_spec aoi_geom t m p gs 0 bv' none be' le_rfl hscan
    constructor
    · constructor
      · intro herr g hg hqual
        obtain ⟨dv, hqw⟩ := hqual
        rw [hget] at herr
        by_cases hz : bv' = 0
        · have hdvle := hquals g hg dv hqw
          have hdvpos := qualWith_pos hqw
          rw [hz] at hdvle
          linarith
        · rw [if_neg hz] at herr
          simp at herr
      · intro hnone
        rw [hget]
        by_cases hz : bv' = 0
        · rw [if_pos hz]
        · exfalso
          rcases hdisj with ⟨hbv2, _⟩ | ⟨pre, g, post, dv, hsplit, hqg, _, _, _, _⟩
          · exact hz hbv2
          · have hgmem : g ∈ gs := by
              rw [hsplit]
              exact List.mem_append.mpr (Or.inr (List.mem_cons_self g post))
            exact hnone g hgmem ⟨dv, hqg⟩
    · intro r hr
      rw [hget] at hr
      by_cases hz : bv' = 0
      · rw [if_pos hz] at hr
        simp at hr
      · rw [if_neg hz] at hr
        injection hr with hbe
        rcases hdisj with ⟨hbv2, _⟩ | ⟨pre, g, post, dv, hsplit, _, _, _, hbe2, _⟩
        · exact absurd hbv2 hz
        · have hgmem : g ∈ gs := by
            rw [hsplit]
            exact List.mem_append.mpr (Or.inr (List.mem_cons_self g post))
          exact ⟨g, hgmem, by rw [← hbe, hbe2]⟩

/-- A witness entry 60 hours away from `t0`, outside the default 48-hour
cutoff. -/
def entry60h : Entry := ⟨⟨216000, none⟩, ⟨216000, none⟩, unitCell⟩

/-- Witness for C2: one group 60 hours from the target under a 48-hour
cutoff; no group qualifies and the selector raises `ValueError`. -/
theorem get_best_overpass_error_iff_witness :
    ((get_best_overpass [entry60h] unitCell t0 48 (3/10) =
        .error PyError.valueError ↔
      ∀ g ∈ [((⟨216000, none⟩ : Timestamp), [entry60h])],
        ¬ Qual unitCell t0 48 (3/10) g) ∧
     ∀ r, get_best_overpass [entry60h] unitCell t0 48 (3/10) = .ok r →
       ∃ g ∈ [((⟨216000, none⟩ : Timestamp), [entry60h])], r = some g.2) :=
  get_best_overpass_error_iff.2 [entry60h] unitCell t0 48 (3/10)
    [(⟨216000, none⟩, [entry60h])] (0, none)
    (by norm_num [group_entries_by_date, groupLoop, average_datetime, tsub,
      insertGroup, entry60h])
    (by norm_num [scan_groups, value_date, valueDateCore, tsub, entry60h, t0])

/-- Inserting an entry into the grouping dict keeps every group's entry list
non-empty: an existing group only gains an entry, a fresh group starts as a
singleton. -/
theorem insertGroup_nonempty (date : Timestamp) (e : Entry) :
    ∀ groups : List (Timestamp × List Entry),
      (∀ g ∈ groups, g.2 ≠ []) →
      ∀ g ∈ insertGroup groups date e, g.2 ≠ [] := by
  intro groups
  induction groups with
  | nil =>
    intro _ g hg
    unfold insertGroup at hg
    rcases List.mem_singleton.mp hg with rfl
    simp
  | cons g0 rest ih =>
    intro hne g hg
    obtain ⟨k, es⟩ := g0
    unfold insertGroup at hg
    by_cases hk : pyEq k date
    · rw [if_pos hk] at hg
      rcases List.mem_cons.mp hg with rfl | hgmem
      · simp
      · exact hne g (List.mem_cons_of_mem _ hgmem)
    · rw [if_neg hk] at hg
      rcases List.mem_cons.mp hg with rfl | hgmem
      · exact hne (k, es) (List.mem_cons_self _ _)
      · exact ih (fun g2 hg2 => hne g2 (List.mem_cons_of_mem _ hg2)) g hgmem

/-- Every group produced by the grouping loop has a non-empty entry list. -/
theorem groupLoop_nonempty :
    ∀ (todo : List Entry) (groups gs : List (Timestamp × List Entry)),
      (∀ g ∈ groups, g.2 ≠ []) →
      groupLoop groups todo = .ok gs →
      ∀ g ∈ gs, g.2 ≠ [] := by
  intro todo
  induction todo with
  | nil =>
    intro groups gs hne h
    unfold groupLoop at h
    injection h with h
    exact h ▸ hne
  | cons e rest ih =>
    intro groups gs hne h
    unfold groupLoop at h
    cases hav : average_datetime e.start_date e.end_date with
    | error err =>
      rw [hav] at h
      simp at h
    | ok date =>
      rw [hav] at h
      simp only at h
      exact ih (insertGroup groups date e) gs
        (insertGroup_nonempty date e groups hne) h

/-- C9: every group built by the grouper holds at least one entry, and a
successful selector run therefore returns `some` non-empty entry list. -/
theorem best_entries_nonempty :
    (∀ (entries : List Entry) (gs : List (Timestamp × List Entry)),
      group_entries_by_date entries = .ok gs → ∀ g ∈ gs, g.2 ≠ []) ∧
    (∀ (entries : List Entry) (aoi_geom : Geom) (t : Timestamp) (m p : ℚ)
      (r : Option (List Entry)),
      get_best_overpass entries aoi_geom t m p = .ok r →
      ∃ es, r = some es ∧ es ≠ []) := by
  have hgroups : ∀ (entries : List Entry) (gs : List (Timestamp × List Entry)),
      group_entries_by_date entries = .ok gs → ∀ g ∈ gs, g.2 ≠ [] := by
    intro entries gs h
    exact groupLoop_nonempty entries [] gs (by intro g hg; cases hg) h
  refine ⟨hgroups, ?_⟩
  intro entries aoi_geom t m p r h
  unfold get_best_overpass at h
  cases hgs : group_entries_by_date entries with
  | error err =>
    rw [hgs] at h
    simp at h
  | ok gs =>
    rw [hgs] at h
    simp only at h
    cases hscan : scan_groups aoi_geom t m p gs 0 none with
    | error err =>
      rw [hscan] at h
      simp at h
    | ok bvbe =>
      obtain ⟨bv', be'⟩ := bvbe
      rw [hscan] at h
      simp only at h
      by_cases hz : bv' = 0
      · rw [if_pos hz] at h
        simp at h
      · rw [if_neg hz] at h
        injection h with hbe
        obtain ⟨_, _, hdisj⟩ :=
          scan_groups_ok_spec aoi_geom t m p gs 0 bv' none be' le_rfl hscan
        rcases hdisj with ⟨hbv2, _⟩ | ⟨pre, g, post, dv, hsplit, _, _, _, hbe2, _⟩
        · exact absurd hbv2 hz
        · have hgmem : g ∈ gs := by
            rw [hsplit]
            exact List.mem_append.mpr (Or.inr (List.mem_cons_self g post))
          exact ⟨g.2, by rw [← hbe, hbe2], hgroups entries gs hgs g hgmem⟩

/-- Witness for C9: the selector run on the single witness entry returns a
non-empty list. -/
theorem best_entries_nonempty_witness :
    ∃ es, (some [entry0] : Option (List Entry)) = some es ∧ es ≠ [] :=
  best_entries_nonempty.2 [entry0] unitCell t0 48 (3/10) (some [entry0]) (by
    norm_num [get_best_overpass, group_entries_by_date, groupLoop, average_datetime,
      tsub, insertGroup, scan_groups, value_date, valueDateCore, value_overlap, area,
      List.mapM, List.mapM.loop, entry0, unitCell, t0])

/-- Witness for C10: a single entry exactly at the target date with
`max_diff_hours = 0` makes the selector raise `ZeroDivisionError`. -/
theorem zero_max_diff_zero_division_witness :
    get_best_overpass [entry0] unitCell t0 0 (3/10) =
      .error PyError.zeroDivision :=
  zero_max_diff_zero_division [entry0] unitCell t0 (3/10)
    [(⟨0, none⟩, [entry0])]
    (by norm_num [group_entries_by_date, groupLoop, average_datetime, tsub,
      insertGroup, entry0, t0])
    ⟨(⟨0, none⟩, [entry0]), List.mem_singleton.mpr rfl,
      by norm_num [diffHours, effDiff, tsub, t0]⟩

/-- An entry whose `start_date` is naive but whose `end_date` is aware: the
midpoint subtraction `end_date - start_date` raises `TypeError` in Python. -/
def mixedEntry : Entry := ⟨⟨0, none⟩, ⟨0, some 0⟩, unitCell⟩

/-- Counterexample to C4 as stated: for an entry whose two endpoints differ
in timezone-awareness the grouper does not partition anything — it raises
`TypeError` from the midpoint subtraction. -/
theorem group_entries_mixed_awareness_raises :
    group_entries_by_date [mixedEntry] = .error PyError.typeError := rfl

/-- A successful key match means the entry's midpoint exists and is
Python-`==` to the key. -/
theorem hasMidKey_true_ex {x : Entry} {k : Timestamp}
    (h : hasMidKey x k = true) :
    ∃ dx, average_datetime x.start_date x.end_date = .ok dx ∧
      pyEq dx k = true := by
  unfold hasMidKey at h
  cases hav : average_datetime x.start_date x.end_date with
  | error err =>
    rw [hav] at h
    simp at h
  | ok dx =>
    rw [hav] at h
    exact ⟨dx, rfl, h⟩

/-- `hasMidKey` in terms of a known midpoint. -/
theorem hasMidKey_eq {x : Entry} {d : Timestamp}
    (h : average_datetime x.start_date x.end_date = .ok d) (k : Timestamp) :
    hasMidKey x k = pyEq d k := by
  unfold hasMidKey
  rw [h]

/-- Invariant of the grouping loop over the already-processed entries
`done`: each group's list is exactly the `done` entries matching its key in
input order, keys are pairwise not Python-equal, and every processed entry
matches some group. -/
def GroupInv (done : List Entry)
    (groups : List (Timestamp × List Entry)) : Prop :=
  (∀ g ∈ groups, g.2 = done.filter (fun x => hasMidKey x g.1)) ∧
  List.Pairwise (fun g g2 => pyEq g.1 g2.1 = false) groups ∧
  (∀ x ∈ done, ∃ g ∈ groups, hasMidKey x g.1 = true)

/-- Effect of one dict insertion on the grouping invariant: the inserted
entry lands in the matching group (or opens a fresh group at the end), all
filter characterizations are maintained for the extended `done` list, keys
stay pairwise distinct, existing keys survive, and the new entry matches
some group; every key of the result is an old key or the new date. -/
theorem insertGroup_spec (done : List Entry) (e : Entry) (d : Timestamp)
    (hd : average_datetime e.start_date e.end_date = .ok d) :
    ∀ groups : List (Timestamp × List Entry),
      (∀ g ∈ groups, g.2 = done.filter (fun x => hasMidKey x g.1)) →
      List.Pairwise (fun g g2 => pyEq g.1 g2.1 = false) groups →
      ((∀ g ∈ groups, pyEq g.1 d = false) →
        ∀ x ∈ done, hasMidKey x d = false) →
      (∀ g ∈ insertGroup groups d e,
        g.2 = (done ++ [e]).filter (fun x => hasMidKey x g.1)) ∧
      List.Pairwise (fun g g2 => pyEq g.1 g2.1 = false)
        (insertGroup groups d e) ∧
      (∀ g ∈ groups, ∃ es2, (g.1, es2) ∈ insertGroup groups d e) ∧
      (∃ g ∈ insertGroup groups d e, hasMidKey e g.1 = true) ∧
      (∀ g2 ∈ insertGroup groups d e,
        (∃ g ∈ groups, g2.1 = g.1) ∨ g2.1 = d) := by
  intro groups
  induction groups with
  | nil =>
    intro _ _ hnomatch
    have hdone : ∀ x ∈ done, hasMidKey x d = false :=
      hnomatch (fun g hg => absurd hg (List.not_mem_nil g))
    refine ⟨?_, ?_, ?_, ?_, ?_⟩
    · intro g hg
      unfold insertGroup at hg
      rcases List.mem_singleton.mp hg with rfl
      rw [List.filter_append]
      have h1 : done.filter (fun x => hasMidKey x d) = [] :=
        List.filter_eq_nil_iff.mpr (fun x hx => by rw [hdone x hx]; simp)
      have h2 : [e].filter (fun x => hasMidKey x d) = [e] := by
        rw [List.filter_singleton, hasMidKey_eq hd d, pyEq_refl]
        rfl
      rw [h1, h2]
      rfl
    · unfold insertGroup
      exact List.pairwise_singleton _ _
    · intro g hg
      exact absurd hg (List.not_mem_nil g)
    · refine ⟨(d, [e]), ?_, ?_⟩
      · unfold insertGroup
        exact List.mem_singleton.mpr rfl
      · rw [hasMidKey_eq hd d, pyEq_refl]
    · intro g2 hg2
      unfold insertGroup at hg2
      rcases List.mem_singleton.mp hg2 with rfl
      exact Or.inr rfl
  | cons g0 rest ih =>
    intro hfilter hpw hnomatch
    obtain ⟨k, es⟩ := g0
    rw [List.pairwise_cons] at hpw
    obtain ⟨hpwhead, hpwtail⟩ := hpw
    by_cases hk : pyEq k d = true
    · have hins : insertGroup ((k, es) :: rest) d e = (k, es ++ [e]) :: rest := by
        unfold insertGroup
        rw [if_pos hk]
      refine ⟨?_, ?_, ?_, ?_, ?_⟩
      · intro g hg
        rw [hins] at hg
        rcases List.mem_cons.mp hg with rfl | hgmem
        · rw [List.filter_append]
          have h1 : done.filter (fun x => hasMidKey x k) = es :=
            (hfilter (k, es) (List.mem_cons_self _ _)).symm
          have h2 : [e].filter (fun x => hasMidKey x k) = [e] := by
            rw [List.filter_singleton, hasMidKey_eq hd k,
              pyEq_comm d k, hk]
            rfl
          rw [h1, h2]
        · have hkey : pyEq d g.1 = false := by
            by_contra hcontra
            rw [Bool.not_eq_false] at hcontra
            have := pyEq_trans hk hcontra
            rw [hpwhead g hgmem] at this
            cases this
          rw [List.filter_append]
          have h2 : [e].filter (fun x => hasMidKey x g.1) = [] := by
            rw [List.filter_singleton, hasMidKey_eq hd g.1, hkey]
            rfl
          rw [h2, List.append_nil]
          exact hfilter g (List.mem_cons_of_mem _ hgmem)
      · rw [hins, List.pairwise_cons]
        exact ⟨hpwhead, hpwtail⟩
      · intro g hg
        rw [hins]
        rcases List.mem_cons.mp hg with rfl | hgmem
        · exact ⟨es ++ [e], List.mem_cons_self _ _⟩
        · exact ⟨g.2, List.mem_cons_of_mem _ hgmem⟩
      · refine ⟨(k, es ++ [e]), ?_, ?_⟩
        · rw [hins]
          exact List.mem_cons_self _ _
        · rw [hasMidKey_eq hd k, pyEq_comm d k, hk]
      · intro g2 hg2
        rw [hins] at hg2
        rcases List.mem_cons.mp hg2 with rfl | hg2mem
        · exact Or.inl ⟨(k, es), List.mem_cons_self _ _, rfl⟩
        · exact Or.inl ⟨g2, List.mem_cons_of_mem _ hg2mem, rfl⟩
    · have hkf : pyEq k d = false := by
        rw [← Bool.not_eq_true]
        exact hk
      have hins : insertGroup ((k, es) :: rest) d e =
          (k, es) :: insertGroup rest d e := by
        conv_lhs => unfold insertGroup
        rw [if_neg hk]
      have hnomatch2 : (∀ g ∈ rest, pyEq g.1 d = false) →
          ∀ x ∈ done, hasMidKey x d = false := by
        intro hall
        refine hnomatch ?_
        intro g hg
        rcases List.mem_cons.mp hg with rfl | hgmem
        · exact hkf
        · exact hall g hgmem
      obtain ⟨iha, ihb, ihc, ihd, ihe⟩ :=
        ih (fun g hg => hfilter g (List.mem_cons_of_mem _ hg)) hpwtail hnomatch2
      refine ⟨?_, ?_, ?_, ?_, ?_⟩
      · intro g hg
        rw [hins] at hg
        rcases List.mem_cons.mp hg with rfl | hgmem
        · rw [List.filter_append]
          have h2 : [e].filter (fun x => hasMidKey x k) = [] := by
            rw [List.filter_singleton, hasMidKey_eq hd k, pyEq_comm d k, hkf]
            rfl
          rw [h2, List.append_nil]
          exact hfilter (k, es) (List.mem_cons_self _ _)
        · exact iha g hgmem
      · rw [hins, List.pairwise_cons]
        refine ⟨?_, ihb⟩
        intro g2 hg2
        rcases ihe g2 hg2 with ⟨g, hgmem, hgeq⟩ | hgeq
        · rw [hgeq]
          exact hpwhead g hgmem
        · rw [hgeq]
          exact hkf
      · intro g hg
        rw [hins]
        rcases List.mem_cons.mp hg with rfl | hgmem
        · exact ⟨es, List.mem_cons_self _ _⟩
        · obtain ⟨es2, hes2⟩ := ihc g hgmem
          exact ⟨es2, List.mem_cons_of_mem _ hes2⟩
      · obtain ⟨g, hgmem, hgkey⟩ := ihd
        refine ⟨g, ?_, hgkey⟩
        rw [hins]
        exact List.mem_cons_of_mem _ hgmem
      · intro g2 hg2
        rw [hins] at hg2
        rcases List.mem_cons.mp hg2 with rfl | hg2mem
        · exact Or.inl ⟨(k, es), List.mem_cons_self _ _, rfl⟩
        · rcases ihe g2 hg2mem with ⟨g, hgmem, hgeq⟩ | hgeq
          · exact Or.inl ⟨g, List.mem_cons_of_mem _ hgmem, hgeq⟩
          · exact Or.inr hgeq


/-- The grouping loop succeeds on awareness-consistent entries and carries
the grouping invariant from the processed prefix to the whole input. -/
theorem groupLoop_spec :
    ∀ (todo done : List Entry) (groups : List (Timestamp × List Entry)),
      (∀ e ∈ todo, e.start_date.tz.isSome = e.end_date.tz.isSome) →
      GroupInv done groups →
      ∃ gs, groupLoop groups todo = .ok gs ∧ GroupInv (done ++ todo) gs := by
  intro todo
  induction todo with
  | nil =>
    intro done groups _ hinv
    refine ⟨groups, rfl, ?_⟩
    rw [List.append_nil]
    exact hinv
  | cons e rest ih =>
    intro done groups hiso hinv
    obtain ⟨hfilter, hpw, hcomplete⟩ := hinv
    have hsub : (tsub e.end_date e.start_date).isSome := by
      rw [tsub_isSome_iff]
      exact (hiso e (List.mem_cons_self _ _)).symm
    obtain ⟨dt, hdt⟩ := Option.isSome_iff_exists.mp hsub
    have hav : average_datetime e.start_date e.end_date =
        .ok ⟨e.start_date.wall + dt / 2, e.start_date.tz⟩ := by
      unfold average_datetime
      rw [hdt]
    set d : Timestamp := ⟨e.start_date.wall + dt / 2, e.start_date.tz⟩ with hdmk
    have hnomatch : (∀ g ∈ groups, pyEq g.1 d = false) →
        ∀ x ∈ done, hasMidKey x d = false := by
      intro hall x hx
      by_contra hcontra
      rw [Bool.not_eq_false] at hcontra
      obtain ⟨dx, hdx, hdxd⟩ := hasMidKey_true_ex hcontra
      obtain ⟨g, hg, hgk⟩ := hcomplete x hx
      obtain ⟨dx2, hdx2, hdx2g⟩ := hasMidKey_true_ex hgk
      rw [hdx] at hdx2
      injection hdx2 with hdxeq
      subst hdxeq
      have h1 : pyEq g.1 dx = true := by
        rw [pyEq_comm]
        exact hdx2g
      have h2 : pyEq g.1 d = true := pyEq_trans h1 hdxd
      rw [hall g hg] at h2
      cases h2
    obtain ⟨iha, ihb, ihc, ihd, ihe⟩ :=
      insertGroup_spec done e d hav groups hfilter hpw hnomatch
    have hinv2 : GroupInv (done ++ [e]) (insertGroup groups d e) := by
      refine ⟨iha, ihb, ?_⟩
      intro x hx
      rcases List.mem_append.mp hx with hxdone | hxe
      · obtain ⟨g, hg, hgk⟩ := hcomplete x hxdone
        obtain ⟨es2, hes2⟩ := ihc g hg
        exact ⟨(g.1, es2), hes2, hgk⟩
      · rcases List.mem_singleton.mp hxe with rfl
        exact ihd
    obtain ⟨gs, hloop, hinvgs⟩ := ih (done ++ [e]) (insertGroup groups d e)
      (fun x hx => hiso x (List.mem_cons_of_mem _ hx)) hinv2
    refine ⟨gs, ?_, ?_⟩
    · have hstep : groupLoop groups (e :: rest) =
          groupLoop (insertGroup groups d e) rest := by
        conv_lhs => unfold groupLoop
        rw [hav]
      rw [hstep]
      exact hloop
    · have hre : (done ++ [e]) ++ rest = done ++ e :: rest := by simp
      rw [← hre]
      exact hinvgs

/-- C4 (amended): for every list of entries in which each entry's two
endpoints agree in timezone-awareness (so that the midpoint subtraction
cannot raise), the grouper partitions the entries by Python-equality of the
computed midpoint: each group's list is exactly the input entries matching
its key, in input order (so nothing is dropped, merged across keys, or
deduplicated), group keys are pairwise not Python-equal, and every entry
matches exactly one group. -/
theorem group_entries_partition (entries : List Entry)
    (hok : ∀ e ∈ entries, e.start_date.tz.isSome = e.end_date.tz.isSome) :
    ∃ gs, group_entries_by_date entries = .ok gs ∧
      (∀ g ∈ gs, g.2 = entries.filter (fun e => hasMidKey e g.1)) ∧
      List.Pairwise (fun g g2 => pyEq g.1 g2.1 = false) gs ∧
      (∀ e ∈ entries, ∃ g ∈ gs, hasMidKey e g.1 = true) ∧
      (∀ e ∈ entries, ∀ g ∈ gs, ∀ g2 ∈ gs,
        hasMidKey e g.1 = true → hasMidKey e g2.1 = true → g = g2) := by
  have hinv0 : GroupInv [] [] := by
    refine ⟨?_, List.Pairwise.nil, ?_⟩
    · intro g hg
      exact absurd hg (List.not_mem_nil g)
    · intro x hx
      exact absurd hx (List.not_mem_nil x)
  obtain ⟨gs, hloop, hinvgs⟩ := groupLoop_spec entries [] [] hok hinv0
  rw [List.nil_append] at hinvgs
  obtain ⟨ha, hb, hc⟩ := hinvgs
  refine ⟨gs, hloop, ha, hb, hc, ?_⟩
  intro e _ g hg g2 hg2 h1 h2
  by_contra hne
  have hsym : Symmetric
      (fun (g g2 : Timestamp × List Entry) => pyEq g.1 g2.1 = false) := by
    intro a b hab
    rw [pyEq_comm]
    exact hab
  have hrel : pyEq g.1 g2.1 = false := hb.forall hsym hg hg2 hne
  obtain ⟨dx, hdx, hdxg⟩ := hasMidKey_true_ex h1
  obtain ⟨dx2, hdx2, hdx2g⟩ := hasMidKey_true_ex h2
  rw [hdx] at hdx2
  injection hdx2 with hdxeq
  subst hdxeq
  have hgdx : pyEq g.1 dx = true := by
    rw [pyEq_comm]
    exact hdxg
  have : pyEq g.1 g2.1 = true := pyEq_trans hgdx hdx2g
  rw [hrel] at this
  cases this

/-- Witness for C4 (amended): the single awareness-consistent witness entry
is grouped under its midpoint key. -/
theorem group_entries_partition_witness :
    ∃ gs, group_entries_by_date [entry0] = .ok gs ∧
      (∀ g ∈ gs, g.2 = [entry0].filter (fun e => hasMidKey e g.1)) ∧
      List.Pairwise (fun g g2 => pyEq g.1 g2.1 = false) gs ∧
      (∀ e ∈ [entry0], ∃ g ∈ gs, hasMidKey e g.1 = true) ∧
      (∀ e ∈ [entry0], ∀ g ∈ gs, ∀ g2 ∈ gs,
        hasMidKey e g.1 = true → hasMidKey e g2.1 = true → g = g2) :=
  group_entries_partition [entry0] (by
    intro e he
    rw [List.mem_singleton] at he
    subst he
    rfl)

/-- Inverse direction of `overlapSum_eq`: a successful overlap sum comes
from a successful `mapM` whose list sums to it. -/
theorem overlapSum_ok_ex {aoi_geom : Geom} {es : List Entry} {s : ℚ}
    (h : overlapSum aoi_geom es = .ok s) :
    ∃ ovs, es.mapM (fun e => value_overlap e.footprint aoi_geom) = .ok ovs ∧
      ovs.sum = s := by
  unfold overlapSum at h
  cases hm : es.mapM (fun e => value_overlap e.footprint aoi_geom) with
  | error err =>
    rw [hm] at h
    simp [Except.map] at h
  | ok ovs =>
    rw [hm] at h
    refine ⟨ovs, rfl, ?_⟩
    simpa [Except.map] using h

/-- A two-cell AOI used to exhibit double counting. -/
def twoCells : Geom := {(0, 0), (1, 0)}

/-- C5: the spatial scorer returns `intersection.area / aoi.area` for any
AOI of nonzero area; the selector gates a group on the plain arithmetic sum
`s` of the per-entry overlap values (the scan step depends on the overlaps
only through `s < min_overlap_pct`); and summing instead of unioning lets
two coincident half-AOI footprints pass a `min_overlap_pct` of 1 although
their union covers only half of the AOI. -/
theorem value_overlap_ratio_and_sum_gate :
    (∀ footprint_geom aoi_geom : Geom, area aoi_geom ≠ 0 →
      value_overlap footprint_geom aoi_geom =
        .ok (area (aoi_geom ∩ footprint_geom) / area aoi_geom)) ∧
    (∀ (aoi_geom : Geom) (t : Timestamp) (m p : ℚ)
      (g : Timestamp × List Entry) (gs : List (Timestamp × List Entry))
      (bv : ℚ) (be : Option (List Entry)) (dv s : ℚ),
      value_date g.1 t m = .ok dv → dv ≠ 0 →
      overlapSum aoi_geom g.2 = .ok s →
      scan_groups aoi_geom t m p (g :: gs) bv be =
        if s < p then scan_groups aoi_geom t m p gs bv be
        else if bv < dv then scan_groups aoi_geom t m p gs dv (some g.2)
        else scan_groups aoi_geom t m p gs bv be) ∧
    (get_best_overpass [entry0, entry0] twoCells t0 48 1 =
        .ok (some [entry0, entry0]) ∧
      area (twoCells ∩ (entry0.footprint ∪ entry0.footprint)) / area twoCells
        < 1) := by
  refine ⟨?_, ?_, ?_, ?_⟩
  · intro footprint_geom aoi_geom hne
    unfold value_overlap
    rw [if_neg hne]
  · intro aoi_geom t m p g gs bv be dv s hdv hne hsum
    obtain ⟨ovs, hmap, hovs⟩ := overlapSum_ok_ex hsum
    have hmap2 : List.mapM.loop (fun e => value_overlap e.footprint aoi_geom)
        g.2 [] = Except.ok ovs := hmap
    by_cases hs : s < p
    · rw [if_pos hs]
      conv_lhs => unfold scan_groups
      simp [hdv, hne, hmap, hmap2, hovs, hs]
    · rw [if_neg hs]
      by_cases hb : bv < dv
      · rw [if_pos hb]
        conv_lhs => unfold scan_groups
        simp [hdv, hne, hmap, hmap2, hovs, hs, hb]
      · rw [if_neg hb]
        conv_lhs => unfold scan_groups
        simp [hdv, hne, hmap, hmap2, hovs, hs, hb]
  · have hc2 : Finset.card ({0, (1, 0)} : Geom) = 2 := rfl
    norm_num [get_best_overpass, group_entries_by_date, groupLoop,
      average_datetime, tsub, insertGroup, scan_groups, value_date,
      valueDateCore, value_overlap, area, List.mapM, List.mapM.loop, pyEq,
      entry0, unitCell, t0, twoCells, hc2, Bind.bind, Except.bind,
      Pure.pure, Except.pure]
  · have h1 : twoCells ∩ (entry0.footprint ∪ entry0.footprint) = unitCell := rfl
    have hc2 : Finset.card ({0, (1, 0)} : Geom) = 2 := rfl
    have hc1 : unitCell.card = 1 := rfl
    rw [h1]
    norm_num [area, hc1, hc2, twoCells]

/-- Witness for C5: the ratio clause instantiated at the half-covering
footprint and the two-cell AOI. -/
theorem value_overlap_ratio_and_sum_gate_witness :
    value_overlap entry0.footprint twoCells =
      .ok (area (twoCells ∩ entry0.footprint) / area twoCells) :=
  value_overlap_ratio_and_sum_gate.1 entry0.footprint twoCells (by
    have hc2 : Finset.card ({0, (1, 0)} : Geom) = 2 := rfl
    norm_num [area, twoCells, hc2])
